import Mathlib

/-!
Shallow embedding of the ARLC LWE-based symbol-wise public-key encryption core
(`arlc.py`): parameter record, symbol encoder/decoder, sparse sampler,
key generation, encryption and decryption, together with theorems settling the
spec claims.

Conventions of the embedding:
* Python (arbitrary-precision) integers are `Int`; vector/matrix data are
  `List Int` / `List (List Int)`.
* Python `%` and `//` on a positive divisor are floor-mod / floor-div, which
  agree with Lean's `Int.emod` / `Int.ediv` (`%` / `/` on `Int`); every divisor
  that appears is positive in all uses considered.
* Python `round` (used on `m_scaled / delta`) is banker's rounding, i.e.
  round-half-to-even; it is modelled exactly on the rational `a / b` by
  `pyRound`.  (For the parameter sets in scope, `delta` is a power of two and
  `m_scaled < 2^53`, so the CPython float division is exact and the model is
  faithful.)
* Randomness is an abstract stream (spec section 1): the draws that
  `np.random` / `random.sample` produce are passed in as explicit arguments
  (`s`, `e`, `ones_positions`, and the per-symbol sparse-vector stream `rs`),
  carrying as hypotheses exactly the guarantees the samplers provide.
* A Python `raise` aborts the function with no partial result; functions that
  can raise return `Except ARLCError _`.
-/

/-- Error kinds raised by the core.  The source raises `ValueError` with
distinct messages; the spec (section 7) names the kinds.  The mapping is:
`SymbolOutOfRange` for the encode-range message, `MalformedCiphertext` for the
decrypt validation message, `CiphertextExceedsModulus` for the (unreachable)
encrypt-side validation message.  The spec's `InvalidParameters` has no
counterpart anywhere in the source. -/
inductive ARLCError where
  | SymbolOutOfRange
  | MalformedCiphertext
  | CiphertextExceedsModulus
deriving DecidableEq

/-- The `ARLCParams` dataclass (`arlc.py` lines 7-16) with its field defaults.
It is a plain record: the source attaches no `__post_init__` and performs no
validation of any kind. -/
structure ARLCParams where
  n : Nat := 256
  m : Nat := 512
  q : Int := 32768
  eta : Int := 4
  p : Int := 256
  delta : Int := 32768 / 256
  r_weight : Nat := 64
deriving DecidableEq

/-- The dataclass constructor: `ARLCParams(n, m, q, eta, p, delta, r_weight)`.
It stores the fields verbatim; no invariant is checked. -/
def mkARLCParams (n m : Nat) (q eta p delta : Int) (r_weight : Nat) : ARLCParams :=
  { n := n, m := m, q := q, eta := eta, p := p, delta := delta, r_weight := r_weight }

/-- The default parameter set `ARLCParams()` used by `ARLC.__init__`. -/
def defaultParams : ARLCParams := {}

/-- Python `round(a / b)` for integers `a b` with `b > 0`, computed exactly on
the rational `a / b`: round to nearest, ties to even (CPython semantics). -/
def pyRound (a b : Int) : Int :=
  if 2 * (a % b) < b then a / b
  else if b < 2 * (a % b) then a / b + 1
  else if a / b % 2 = 0 then a / b else a / b + 1

/-- `np.dot` on two equal-length integer vectors (used for all inner products
in the source).  On mismatched lengths the extra tail is ignored; all uses in
the theorems below carry equal-length hypotheses where it matters. -/
def dotInt : List Int → List Int → Int
  | x :: xs, y :: ys => x * y + dotInt xs ys
  | _, _ => 0

/-- `np.dot(A.T, r)`: each component of the result is the inner product of a
column of `A` with `r` (`arlc.py` line 113 before the `% q` reduction). -/
def matTvec (A : List (List Int)) (r : List Int) : List Int :=
  A.transpose.map (fun col => dotInt col r)

/-- `ARLC._encode_message_symbol` (`arlc.py` lines 48-55):
`if not 0 <= m < p: raise ValueError(...)` then
`return ((m + p // 2) * delta) % q`. -/
def encode_message_symbol (P : ARLCParams) (mval : Int) : Except ARLCError Int :=
  if 0 ≤ mval ∧ mval < P.p then Except.ok (((mval + P.p / 2) * P.delta) % P.q)
  else Except.error ARLCError.SymbolOutOfRange

/-- The post-rounding step of `ARLC._decode_message_symbol`
(`arlc.py` lines 68-79), applied to `m_approx`:
`m_rec = m_approx % p`, then the alternative-value heuristic
`if abs(m_approx - m_rec) > delta // 4: alt_m = (m_rec + p) % p;`
`if abs(m_approx - alt_m) < abs(m_approx - m_rec): m_rec = alt_m`. -/
def decodePost (P : ARLCParams) (m_approx : Int) : Int :=
  if |m_approx - m_approx % P.p| > P.delta / 4 then
    if |m_approx - (m_approx % P.p + P.p) % P.p| < |m_approx - m_approx % P.p| then
      (m_approx % P.p + P.p) % P.p
    else m_approx % P.p
  else m_approx % P.p

/-- The body of `ARLC._decode_message_symbol` after the initial reduction:
`m_approx = int(round(m_scaled / delta)) - p // 2` followed by `decodePost`. -/
def decodeCore (P : ARLCParams) (ms : Int) : Int :=
  decodePost P (pyRound ms P.delta - P.p / 2)

/-- `ARLC._decode_message_symbol` (`arlc.py` lines 57-79): first
`m_scaled = m_scaled % q`, then rounding, centring offset, reduction mod `p`,
and the alternative-value heuristic. -/
def decode_message_symbol (P : ARLCParams) (m_scaled : Int) : Int :=
  decodeCore P (m_scaled % P.q)

/-- The decoder the spec's words describe (section 4.4):
`decode(V') = (round(V' / delta) - p/2) mod p`, with no heuristic.
This definition follows the spec text, for the refinement claim comparing it
with `decode_message_symbol` from the source. -/
def rounding_decoder_spec (P : ARLCParams) (v : Int) : Int :=
  (pyRound v P.delta - P.p / 2) % P.p

/-- `ARLC._generate_sparse_r` (`arlc.py` lines 81-88):
`r = np.zeros(m); r[ones_positions] = 1`.  The draw
`ones_positions = random.sample(range(m), r_weight)` is passed in as an
argument; `random.sample` guarantees a duplicate-free list of members of
`range(m)` of length `r_weight`, which the theorems carry as hypotheses. -/
def generate_sparse_r (P : ARLCParams) (ones_positions : List Nat) : List Int :=
  (List.range P.m).map (fun i => if i ∈ ones_positions then 1 else 0)

/-- `ARLC.generate_keypair` (`arlc.py` lines 35-46) with the error-sampler
draws `s` and `e` passed in explicitly:
`b = (np.dot(A, s) + e) % q; return ((A, b), s)`. -/
def generate_keypair (P : ARLCParams) (A : List (List Int)) (s e : List Int) :
    (List (List Int) × List Int) × List Int :=
  ((A, (List.zipWith (fun x y => x + y) (A.map (fun row => dotInt row s)) e).map
      (fun x => x % P.q)), s)

/-- The per-symbol ciphertext computation inside `ARLC.encrypt`
(`arlc.py` lines 113-114):
`U = np.dot(A.T, r) % q` and `V = (np.dot(r, b) + m_scaled) % q`. -/
def encrypt_symbol (P : ARLCParams) (A : List (List Int)) (b : List Int)
    (r : List Int) (m_scaled : Int) : List Int × Int :=
  ((matTvec A r).map (fun x => x % P.q), (dotInt r b + m_scaled) % P.q)

/-- The `for ch in message` loop of `ARLC.encrypt` (`arlc.py` lines 107-121),
threading the index `i` into the randomness stream `rs` (one sparse vector is
drawn per iteration).  Each iteration encodes the symbol (which can raise),
computes `(U, V)`, runs the (unreachable for `q > 0`) modulus validation, and
appends; a raise aborts the whole call with no partial ciphertext. -/
def encryptLoop (P : ARLCParams) (A : List (List Int)) (b : List Int)
    (rs : Nat → List Int) : List Int → Nat → Except ARLCError (List (List Int × Int))
  | [], _ => Except.ok []
  | mval :: rest, i =>
    match encode_message_symbol P mval with
    | Except.error err => Except.error err
    | Except.ok m_scaled =>
      let c := encrypt_symbol P A b (rs i) m_scaled
      if (∃ u ∈ c.1, P.q ≤ u) ∨ P.q ≤ c.2 then Except.error ARLCError.CiphertextExceedsModulus
      else
        match encryptLoop P A b rs rest (i + 1) with
        | Except.error err => Except.error err
        | Except.ok cs => Except.ok (c :: cs)

/-- `ARLC.encrypt` (`arlc.py` lines 90-122): the message is the list of code
units `ord(ch)` of the input string; `rs i` is the sparse vector drawn at the
`i`-th iteration. -/
def encrypt (P : ARLCParams) (pk : List (List Int) × List Int)
    (rs : Nat → List Int) (message : List Int) : Except ARLCError (List (List Int × Int)) :=
  encryptLoop P pk.1 pk.2 rs message 0

/-- CPython `str.isprintable` restricted to one code unit below 256 (the only
range reachable from the parameter sets in scope, where `p ≤ 256`): printable
are the ASCII graphic characters and space (32-126) and the Latin-1 graphic
characters (161-255 except 173, the soft hyphen); C0/C1 controls, DEL, NBSP
(160) and the soft hyphen are not printable. -/
def str_isprintable (c : Int) : Bool :=
  decide ((32 ≤ c ∧ c ≤ 126) ∨ (161 ≤ c ∧ c ≤ 255 ∧ c ≠ 173))

/-- The character post-processing of `ARLC.decrypt` (`arlc.py` lines 153-158):
`ch = chr(m_rec)` (raises for code points outside `[0, 0x110000)`, caught and
replaced by the literal question mark), and non-printable characters are
replaced by the question mark, code unit 63. -/
def postprocess_symbol (m_rec : Int) : Int :=
  if 0 ≤ m_rec ∧ m_rec < 1114112 then
    if str_isprintable m_rec then m_rec else 63
  else 63

/-- The raw per-symbol decryption of `ARLC.decrypt` (`arlc.py` lines 144-150),
before character post-processing:
`prod = np.dot(U, secret_key) % q; m_scaled = (V - prod) % q;`
`m_rec = _decode_message_symbol(m_scaled)`. -/
def decrypt_symbol (P : ARLCParams) (sk : List Int) (U : List Int) (V : Int) : Int :=
  decode_message_symbol P ((V - dotInt U sk % P.q) % P.q)

/-- `ARLC.decrypt` (`arlc.py` lines 124-162): per pair `(U, V)`, validate
(`if np.any(U >= q) or V >= q: raise ValueError(...)`; note there is no lower
bound check), recover and decode the symbol, post-process the character. -/
def decrypt (P : ARLCParams) (ct : List (List Int × Int)) (sk : List Int) :
    Except ARLCError (List Int) :=
  match ct with
  | [] => Except.ok []
  | (U, V) :: rest =>
    if (∃ u ∈ U, P.q ≤ u) ∨ P.q ≤ V then Except.error ARLCError.MalformedCiphertext
    else
      match decrypt P rest sk with
      | Except.error err => Except.error err
      | Except.ok tail => Except.ok (postprocess_symbol (decrypt_symbol P sk U V) :: tail)

/-- The concrete small valid parameter set used for the concrete round-trip
evaluation: `q = delta * p`, `0 < r_weight ≤ m`, and the worst-case noise
`r_weight * eta = 4` is far below `delta / 2 = 64`. -/
def P_small : ARLCParams :=
  { n := 1, m := 2, q := 32768, eta := 4, p := 256, delta := 128, r_weight := 1 }

/-! ### Helper lemmas -/

lemma pyRound_mul_add (d a n : Int) (hd : 0 < d) (hn : 2 * |n| < d) :
    pyRound (d * a + n) d = a := by
  rcases le_or_lt 0 n with h0 | h0
  · have hnn : 2 * n < d := by rwa [abs_of_nonneg h0] at hn
    have hlt : n < d := by omega
    have hdiv : (d * a + n) / d = a := by
      rw [add_comm, Int.add_mul_ediv_left n a (ne_of_gt hd),
        Int.ediv_eq_zero_of_lt h0 hlt, zero_add]
    have hmod : (d * a + n) % d = n := by
      rw [add_comm, Int.add_mul_emod_self_left, Int.emod_eq_of_lt h0 hlt]
    unfold pyRound
    rw [hdiv, hmod, if_pos hnn]
  · have hnn : -d < 2 * n := by rw [abs_of_neg h0] at hn; omega
    have h1 : 0 < n + d := by omega
    have h2 : n + d < d := by omega
    have key : d * a + n = (n + d) + d * (a - 1) := by ring
    have hdiv : (d * a + n) / d = a - 1 := by
      rw [key, Int.add_mul_ediv_left _ _ (ne_of_gt hd),
        Int.ediv_eq_zero_of_lt (le_of_lt h1) h2, zero_add]
    have hmod : (d * a + n) % d = n + d := by
      rw [key, Int.add_mul_emod_self_left, Int.emod_eq_of_lt (le_of_lt h1) h2]
    have hgt : d < 2 * (n + d) := by omega
    unfold pyRound
    rw [hdiv, hmod, if_neg (by omega), if_pos hgt]
    ring

lemma decodePost_eq (P : ARLCParams) (a : Int) : decodePost P a = a % P.p := by
  unfold decodePost
  have halt : (a % P.p + P.p) % P.p = a % P.p := by
    have h1 : a % P.p + P.p = a % P.p + P.p * 1 := by ring
    rw [h1, Int.add_mul_emod_self_left, Int.emod_emod_of_dvd _ dvd_rfl]
  rw [halt]
  simp

lemma decode_eq_plain (P : ARLCParams) (x : Int) :
    decode_message_symbol P x = (pyRound (x % P.q) P.delta - P.p / 2) % P.p := by
  unfold decode_message_symbol decodeCore
  exact decodePost_eq P _

lemma decode_emod (P : ARLCParams) (x : Int) :
    decode_message_symbol P (x % P.q) = decode_message_symbol P x := by
  unfold decode_message_symbol decodeCore
  rw [Int.emod_emod_of_dvd _ dvd_rfl]

lemma decode_mul_add (P : ARLCParams) (s noise : Int)
    (hq : P.q = P.delta * P.p) (hd : 0 < P.delta) (hn : 2 * |noise| < P.delta) :
    decode_message_symbol P (P.delta * s + noise) = (s - P.p / 2) % P.p := by
  have hmod : (P.delta * s + noise) % P.q
      = P.delta * (s - P.p * ((P.delta * s + noise) / P.q)) + noise := by
    rw [Int.emod_def, hq]; ring
  rw [decode_eq_plain, hmod, pyRound_mul_add P.delta _ noise hd hn]
  have h2 : s - P.p * ((P.delta * s + noise) / P.q) - P.p / 2
      = s - P.p / 2 + P.p * (-((P.delta * s + noise) / P.q)) := by ring
  rw [h2, Int.add_mul_emod_self_left]

lemma decode_encode_general (P : ARLCParams) (mv noise : Int)
    (hq : P.q = P.delta * P.p) (hd : 0 < P.delta) (hp : 0 < P.p)
    (h0 : 0 ≤ mv) (h1 : mv < P.p) (hn : 2 * |noise| < P.delta) :
    decode_message_symbol P (((mv + P.p / 2) * P.delta) % P.q + noise) = mv := by
  have hsplit : ((mv + P.p / 2) * P.delta) % P.q
      = P.delta * ((mv + P.p / 2) % P.p) := by
    rw [hq, mul_comm (mv + P.p / 2) P.delta, Int.mul_emod_mul_of_pos _ _ hd]
  rw [hsplit, decode_mul_add P _ noise hq hd hn]
  have h2 : ((mv + P.p / 2) % P.p - P.p / 2) % P.p = (mv + P.p / 2 - P.p / 2) % P.p := by
    rw [Int.sub_emod, Int.emod_emod_of_dvd _ dvd_rfl, ← Int.sub_emod]
  rw [h2]
  have h3 : mv + P.p / 2 - P.p / 2 = mv := by ring
  rw [h3]
  exact Int.emod_eq_of_lt h0 h1

/-! ### Claims C2, C3, C10 -/

/-- Claim C2: for every symbol `m` in `[0, p)` and every integer noise with
`|noise| < delta / 2` (strictly, as a rational: `2 * |noise| < delta`),
decoding `(encode(m) + noise) mod q` recovers `m`, for every parameter set
satisfying the spec invariants `q = delta * p`, `delta > 0`, `p > 0`. -/
theorem c2_decode_encode_with_noise (P : ARLCParams) (mv noise e : Int)
    (hq : P.q = P.delta * P.p) (hd : 0 < P.delta) (hp : 0 < P.p)
    (hn : 2 * |noise| < P.delta)
    (he : encode_message_symbol P mv = Except.ok e) :
    decode_message_symbol P ((e + noise) % P.q) = mv := by
  unfold encode_message_symbol at he
  by_cases hmr : 0 ≤ mv ∧ mv < P.p
  · rw [if_pos hmr] at he
    have he' : ((mv + P.p / 2) * P.delta) % P.q = e := Except.ok.inj he
    subst he'
    rw [decode_emod]
    exact decode_encode_general P mv noise hq hd hp hmr.1 hmr.2 hn
  · rw [if_neg hmr] at he
    exact (Except.noConfusion he)

/-- Witness for C2 at the default parameters, `m = 200`, `noise = -63`. -/
theorem c2_decode_encode_with_noise_witness :
    decode_message_symbol defaultParams ((9216 + (-63)) % defaultParams.q) = 200 :=
  c2_decode_encode_with_noise defaultParams 200 (-63) 9216 (by decide) (by decide)
    (by decide) (by decide) rfl

/-- Claim C3: for every symbol `m` in `[0, p)`, decoding `encode(m)` with no
noise returns `m` exactly, for every parameter set satisfying the spec
invariants `q = delta * p`, `delta > 0`, `p > 0`. -/
theorem c3_decode_encode_identity (P : ARLCParams) (mv e : Int)
    (hq : P.q = P.delta * P.p) (hd : 0 < P.delta) (hp : 0 < P.p)
    (he : encode_message_symbol P mv = Except.ok e) :
    decode_message_symbol P e = mv := by
  unfold encode_message_symbol at he
  by_cases hmr : 0 ≤ mv ∧ mv < P.p
  · rw [if_pos hmr] at he
    have he' : ((mv + P.p / 2) * P.delta) % P.q = e := Except.ok.inj he
    subst he'
    have h := decode_encode_general P mv 0 hq hd hp hmr.1 hmr.2 (by simpa using hd)
    rwa [add_zero] at h
  · rw [if_neg hmr] at he
    exact (Except.noConfusion he)

/-- Witness for C3 at the default parameters, `m = 0`. -/
theorem c3_decode_encode_identity_witness :
    decode_message_symbol defaultParams 16384 = 0 :=
  c3_decode_encode_identity defaultParams 0 16384 (by decide) (by decide) (by decide) rfl

/-- Claim C10: the alternative-value branch inside the decoder never changes
the result; on every input in `[0, q)` the full decoder agrees with the plain
rule `(round(v / delta) - p / 2) mod p`. -/
theorem c10_decoder_equals_plain_rule (P : ARLCParams) (v : Int)
    (h0 : 0 ≤ v) (h1 : v < P.q) :
    decode_message_symbol P v = rounding_decoder_spec P v := by
  unfold rounding_decoder_spec
  rw [decode_eq_plain, Int.emod_eq_of_lt h0 h1]

/-- Witness for C10 at the default parameters, `v = 0`. -/
theorem c10_decoder_equals_plain_rule_witness :
    decode_message_symbol defaultParams 0 = rounding_decoder_spec defaultParams 0 :=
  c10_decoder_equals_plain_rule defaultParams 0 (by decide) (by decide)

/-! ### Encryption loop lemmas -/

lemma encrypt_symbol_components_lt (P : ARLCParams) (A : List (List Int)) (b : List Int)
    (r : List Int) (ms : Int) (hq : 0 < P.q) :
    ¬ ((∃ u ∈ (encrypt_symbol P A b r ms).1, P.q ≤ u) ∨ P.q ≤ (encrypt_symbol P A b r ms).2) := by
  push_neg
  refine ⟨?_, Int.emod_lt_of_pos _ hq⟩
  intro u hu
  obtain ⟨x, hx, rfl⟩ := List.mem_map.mp hu
  exact Int.emod_lt_of_pos _ hq

lemma encryptLoop_cons_ok (P : ARLCParams) (A : List (List Int)) (b : List Int)
    (rs : Nat → List Int) (mval : Int) (rest : List Int) (i : Nat)
    (hq : 0 < P.q) (hm : 0 ≤ mval ∧ mval < P.p) :
    encryptLoop P A b rs (mval :: rest) i
      = match encryptLoop P A b rs rest (i + 1) with
        | Except.error err => Except.error err
        | Except.ok cs =>
            Except.ok (encrypt_symbol P A b (rs i) (((mval + P.p / 2) * P.delta) % P.q) :: cs) := by
  have henc : encode_message_symbol P mval
      = Except.ok (((mval + P.p / 2) * P.delta) % P.q) := by
    unfold encode_message_symbol; rw [if_pos hm]
  conv_lhs => rw [encryptLoop]
  rw [henc]
  simp only []
  rw [if_neg (encrypt_symbol_components_lt P A b (rs i) _ hq)]

lemma encryptLoop_cons_err (P : ARLCParams) (A : List (List Int)) (b : List Int)
    (rs : Nat → List Int) (mval : Int) (rest : List Int) (i : Nat)
    (hm : ¬ (0 ≤ mval ∧ mval < P.p)) :
    encryptLoop P A b rs (mval :: rest) i = Except.error ARLCError.SymbolOutOfRange := by
  have henc : encode_message_symbol P mval = Except.error ARLCError.SymbolOutOfRange := by
    unfold encode_message_symbol; rw [if_neg hm]
  unfold encryptLoop
  rw [henc]

/-- The in-order list of per-symbol ciphertexts an error-free run of the
encryption loop produces (used to state length and order preservation). -/
def encMap (P : ARLCParams) (A : List (List Int)) (b : List Int)
    (rs : Nat → List Int) : List Int → Nat → List (List Int × Int)
  | [], _ => []
  | mval :: rest, i =>
      encrypt_symbol P A b (rs i) (((mval + P.p / 2) * P.delta) % P.q)
        :: encMap P A b rs rest (i + 1)

lemma encryptLoop_eq_encMap (P : ARLCParams) (A : List (List Int)) (b : List Int)
    (rs : Nat → List Int) (msg : List Int) (hq : 0 < P.q)
    (hsym : ∀ x ∈ msg, 0 ≤ x ∧ x < P.p) :
    ∀ i, encryptLoop P A b rs msg i = Except.ok (encMap P A b rs msg i) := by
  induction msg with
  | nil => intro i; rfl
  | cons mval rest ih =>
    intro i
    have hm : 0 ≤ mval ∧ mval < P.p := hsym mval (List.mem_cons_self mval rest)
    have hrest : ∀ x ∈ rest, 0 ≤ x ∧ x < P.p := fun x hx => hsym x (List.mem_cons_of_mem _ hx)
    rw [encryptLoop_cons_ok P A b rs mval rest i hq hm, ih hrest (i + 1)]
    rfl

lemma encMap_length (P : ARLCParams) (A : List (List Int)) (b : List Int)
    (rs : Nat → List Int) (msg : List Int) :
    ∀ i, (encMap P A b rs msg i).length = msg.length := by
  induction msg with
  | nil => intro i; rfl
  | cons mval rest ih => intro i; simpa [encMap] using ih (i + 1)

lemma encMap_get (P : ARLCParams) (A : List (List Int)) (b : List Int)
    (rs : Nat → List Int) (msg : List Int) :
    ∀ i j (hj : j < (encMap P A b rs msg i).length) (hj' : j < msg.length),
      (encMap P A b rs msg i).get ⟨j, hj⟩
        = encrypt_symbol P A b (rs (i + j))
            (((msg.get ⟨j, hj'⟩ + P.p / 2) * P.delta) % P.q) := by
  induction msg with
  | nil => intro i j hj hj'; exact absurd hj' (by simp)
  | cons mval rest ih =>
    intro i j hj hj'
    cases j with
    | zero => simp [encMap]
    | succ j' =>
      have hj2 : j' < (encMap P A b rs rest (i + 1)).length := by
        have h := hj
        rw [encMap, List.length_cons] at h
        omega
      have hj2' : j' < rest.length := by simpa using hj'
      have harith : i + (j' + 1) = i + 1 + j' := by omega
      rw [harith]
      exact ih (i + 1) j' hj2 hj2'

/-! ### Claims C5, C6 -/

/-- Claim C5: for every plaintext containing some symbol outside `[0, p)`
(negative, equal to `p`, or greater), `encrypt` fails with `SymbolOutOfRange`;
the caller receives the error and no ciphertext symbols at all (the `Except`
result carries either the error or the whole ciphertext, never a partial one,
matching Python exception semantics). -/
theorem c5_encrypt_out_of_range_error (P : ARLCParams) (A : List (List Int))
    (b : List Int) (rs : Nat → List Int) (msg : List Int) (hq : 0 < P.q)
    (hbad : ∃ x ∈ msg, x < 0 ∨ P.p ≤ x) :
    encrypt P (A, b) rs msg = Except.error ARLCError.SymbolOutOfRange := by
  show encryptLoop P A b rs msg 0 = Except.error ARLCError.SymbolOutOfRange
  suffices h : ∀ i, encryptLoop P A b rs msg i = Except.error ARLCError.SymbolOutOfRange from h 0
  induction msg with
  | nil => exact absurd hbad (by simp)
  | cons mval rest ih =>
    intro i
    by_cases hm : 0 ≤ mval ∧ mval < P.p
    · have hrest : ∃ x ∈ rest, x < 0 ∨ P.p ≤ x := by
        obtain ⟨x, hx, hxr⟩ := hbad
        rcases List.mem_cons.mp hx with rfl | hx'
        · exact absurd hxr (by omega)
        · exact ⟨x, hx', hxr⟩
      rw [encryptLoop_cons_ok P A b rs mval rest i hq hm, ih hrest (i + 1)]
    · exact encryptLoop_cons_err P A b rs mval rest i hm

/-- Witness for C5: encrypting `[72, 256]` (the second symbol equals `p`)
under the default parameters fails with `SymbolOutOfRange`. -/
theorem c5_encrypt_out_of_range_error_witness :
    encrypt defaultParams ([], []) (fun _ => []) [72, 256]
      = Except.error ARLCError.SymbolOutOfRange :=
  c5_encrypt_out_of_range_error defaultParams [] [] (fun _ => []) [72, 256]
    (by decide) (by decide)

/-- Claim C6: for every plaintext of length `L` whose symbols all lie in
`[0, p)`, `encrypt` returns a ciphertext of length exactly `L` whose `j`-th
symbol ciphertext is the per-symbol computation on the `j`-th plaintext symbol
(same order); the empty plaintext yields the empty ciphertext, and decrypting
the empty ciphertext yields the empty sequence. -/
theorem c6_encrypt_length_order (P : ARLCParams) (A : List (List Int))
    (b : List Int) (rs : Nat → List Int) (msg : List Int) (hq : 0 < P.q)
    (hsym : ∀ x ∈ msg, 0 ≤ x ∧ x < P.p) :
    (∃ cts, encrypt P (A, b) rs msg = Except.ok cts ∧ cts.length = msg.length ∧
      ∀ j (hj : j < cts.length) (hj' : j < msg.length),
        cts.get ⟨j, hj⟩ = encrypt_symbol P A b (rs j)
          (((msg.get ⟨j, hj'⟩ + P.p / 2) * P.delta) % P.q)) ∧
    encrypt P (A, b) rs [] = Except.ok [] ∧
    (∀ sk, decrypt P [] sk = Except.ok []) := by
  refine ⟨⟨encMap P A b rs msg 0, ?_, encMap_length P A b rs msg 0, ?_⟩, rfl, fun sk => rfl⟩
  · exact encryptLoop_eq_encMap P A b rs msg hq hsym 0
  · intro j hj hj'
    have h := encMap_get P A b rs msg 0 j hj hj'
    simpa using h

/-- Witness for C6 at the default parameters on a two-symbol plaintext. -/
theorem c6_encrypt_length_order_witness :
    (∃ cts, encrypt defaultParams ([], []) (fun _ => []) [72, 101] = Except.ok cts ∧
      cts.length = ([72, 101] : List Int).length ∧
      ∀ j (hj : j < cts.length) (hj' : j < ([72, 101] : List Int).length),
        cts.get ⟨j, hj⟩ = encrypt_symbol defaultParams [] [] ((fun _ => ([] : List Int)) j)
          (((([72, 101] : List Int).get ⟨j, hj'⟩ + defaultParams.p / 2) * defaultParams.delta)
            % defaultParams.q)) ∧
    encrypt defaultParams ([], []) (fun _ => []) [] = Except.ok [] ∧
    (∀ sk, decrypt defaultParams [] sk = Except.ok []) :=
  c6_encrypt_length_order defaultParams [] [] (fun _ => []) [72, 101]
    (by decide) (by decide)

/-! ### Claims C7, C8 (decrypt) -/

/-- Claim C7 fails on the code: `decrypt` does not return raw decoded symbols.
Counterexample: the single-symbol ciphertext `([0], 17664)` under the default
parameters and the zero secret key decodes to the raw symbol 10 (newline, a
non-printable code unit), but `decrypt` returns 63 (the question mark): the
raw symbol is replaced, contradicting the claim. -/
theorem c7_raw_symbols_counterexample :
    decrypt_symbol defaultParams [0] [0] 17664 = 10 ∧
    decrypt defaultParams [([0], 17664)] [0] = Except.ok [63] ∧
    (10 : Int) ≠ 63 :=
  ⟨rfl, rfl, by decide⟩

/-- Claim C7 as amended: for every well-formed ciphertext (components below
`q`, `U` lengths matching the secret key, `delta > 0` so the Python division
is defined), `decrypt` returns the per-symbol decoded symbols passed through
the character post-processing step, which replaces non-printable code units
(and out-of-`chr`-range values) by the question mark 63 and leaves printable
code units unchanged.  The hypothesis `p ≤ 256` keeps every decoded symbol in
the Latin-1 range on which `str_isprintable` models CPython exactly. -/
theorem c7_decrypt_postprocessed (P : ARLCParams) (ct : List (List Int × Int))
    (sk : List Int) (hd : 0 < P.delta) (hp : P.p ≤ 256)
    (hlen : ∀ pr ∈ ct, pr.1.length = sk.length)
    (hok : ∀ pr ∈ ct, (∀ u ∈ pr.1, u < P.q) ∧ pr.2 < P.q) :
    decrypt P ct sk
      = Except.ok (ct.map (fun pr => postprocess_symbol (decrypt_symbol P sk pr.1 pr.2))) := by
  induction ct with
  | nil => rfl
  | cons pr rest ih =>
    obtain ⟨U, V⟩ := pr
    have hhd := hok (U, V) (List.mem_cons_self _ _)
    have hcond : ¬ ((∃ u ∈ U, P.q ≤ u) ∨ P.q ≤ V) := by
      push_neg
      exact ⟨fun u hu => hhd.1 u hu, hhd.2⟩
    have hrest := ih (fun pr hpr => hlen pr (List.mem_cons_of_mem _ hpr))
      (fun pr hpr => hok pr (List.mem_cons_of_mem _ hpr))
    rw [decrypt, if_neg hcond, hrest]
    rfl

/-- Witness for the amended C7: a well-formed one-symbol ciphertext decoding
to the printable symbol 72 is returned as-is through the post-processing. -/
theorem c7_decrypt_postprocessed_witness :
    decrypt defaultParams [([0], 25600)] [0]
      = Except.ok ([([0], 25600)].map
          (fun pr => postprocess_symbol (decrypt_symbol defaultParams [0] pr.1 pr.2))) :=
  c7_decrypt_postprocessed defaultParams [([0], 25600)] [0]
    (by decide) (by decide) (by decide) (by decide)

/-- Claim C8 fails on the code as stated: the decrypt validation checks only
the upper bound `>= q`, never negativity.  Counterexample: the ciphertext
`[([-5], 0)]` has a `U` component outside `[0, q)`, yet `decrypt` under the
default parameters succeeds (returning a symbol) instead of failing with
`MalformedCiphertext`. -/
theorem c8_negative_component_counterexample :
    ((-5 : Int) < 0 ∨ defaultParams.q ≤ (-5 : Int)) ∧
    decrypt defaultParams [([-5], 0)] [2] = Except.ok [63] :=
  ⟨by decide, rfl⟩

/-- Claim C8 as amended: `decrypt` fails with `MalformedCiphertext` exactly
when some `U` component or `V` is `≥ q` (negative components are not
detected), and succeeds on every ciphertext whose components are all `< q` —
in particular on every ciphertext with components in `[0, q)`.  The
hypotheses keep the embedding on the domain where the Python code is defined:
`delta > 0` (no division by zero) and `U` lengths matching the secret key
(defined `np.dot`). -/
theorem c8_malformed_check (P : ARLCParams) (ct : List (List Int × Int))
    (sk : List Int) (hd : 0 < P.delta)
    (hlen : ∀ pr ∈ ct, pr.1.length = sk.length) :
    (decrypt P ct sk = Except.error ARLCError.MalformedCiphertext
      ↔ ∃ pr ∈ ct, (∃ u ∈ pr.1, P.q ≤ u) ∨ P.q ≤ pr.2) ∧
    ((∀ pr ∈ ct, (∀ u ∈ pr.1, u < P.q) ∧ pr.2 < P.q)
      → ∃ out, decrypt P ct sk = Except.ok out) := by
  induction ct with
  | nil =>
    refine ⟨⟨fun h => ?_, fun h => ?_⟩, fun _ => ⟨[], rfl⟩⟩
    · exact absurd h (by simp [decrypt])
    · exact absurd h (by simp)
  | cons pr rest ih =>
    obtain ⟨U, V⟩ := pr
    have ihr := ih (fun pr hpr => hlen pr (List.mem_cons_of_mem _ hpr))
    by_cases hcond : (∃ u ∈ U, P.q ≤ u) ∨ P.q ≤ V
    · refine ⟨⟨fun _ => ⟨(U, V), List.mem_cons_self _ _, hcond⟩, fun _ => ?_⟩, fun hall => ?_⟩
      · rw [decrypt, if_pos hcond]
      · exact absurd hcond (by
          have h := hall (U, V) (List.mem_cons_self _ _)
          push_neg
          exact ⟨fun u hu => h.1 u hu, h.2⟩)
    · constructor
      · constructor
        · intro h
          rw [decrypt, if_neg hcond] at h
          rcases heq : decrypt P rest sk with err | tail
          · rw [heq] at h
            have herr : err = ARLCError.MalformedCiphertext := by
              cases h; rfl
            obtain ⟨pr, hpr, hbad⟩ := ihr.1.mp (by rw [heq, herr])
            exact ⟨pr, List.mem_cons_of_mem _ hpr, hbad⟩
          · rw [heq] at h
            exact absurd h (by simp)
        · intro hex
          obtain ⟨pr, hpr, hbad⟩ := hex
          rcases List.mem_cons.mp hpr with rfl | hpr'
          · exact absurd hbad hcond
          · rw [decrypt, if_neg hcond, ihr.1.mpr ⟨pr, hpr', hbad⟩]
      · intro hall
        obtain ⟨out, hout⟩ := ihr.2 (fun pr hpr => hall pr (List.mem_cons_of_mem _ hpr))
        exact ⟨postprocess_symbol (decrypt_symbol P sk U V) :: out, by
          rw [decrypt, if_neg hcond, hout]⟩

/-- Witness for the amended C8: a one-symbol ciphertext with `V = 40000 ≥ q`
is rejected with `MalformedCiphertext` under the default parameters. -/
theorem c8_malformed_check_witness :
    decrypt defaultParams [([5], 40000)] [2] = Except.error ARLCError.MalformedCiphertext :=
  (c8_malformed_check defaultParams [([5], 40000)] [2] (by decide) (by decide)).1.mpr
    (by decide)

/-! ### Claim C9 (sparse sampler) -/

lemma filter_mem_perm {pos : List Nat} {m : Nat} (hnd : pos.Nodup)
    (hlt : ∀ i ∈ pos, i < m) :
    ((List.range m).filter (fun i => decide (i ∈ pos))).Perm pos := by
  apply (List.perm_ext_iff_of_nodup ((List.nodup_range m).filter _) hnd).mpr
  intro a
  simp only [List.mem_filter, List.mem_range, decide_eq_true_eq]
  exact ⟨fun h => h.2, fun h => ⟨hlt a h, h⟩⟩

/-- Claim C9: every vector returned by the sparse sampler is a binary vector
of length `m` (each entry 0 or 1) whose number of ones is exactly `r_weight`,
given the guarantees of `random.sample(range(m), r_weight)` on the drawn
positions (pairwise distinct members of `range(m)`, `r_weight` of them, which
requires `0 < r_weight ≤ m` as the claim supposes). -/
theorem c9_sparse_vector_weight (P : ARLCParams) (pos : List Nat)
    (hnd : pos.Nodup) (hlt : ∀ i ∈ pos, i < P.m)
    (hlen : pos.length = P.r_weight)
    (hw : 0 < P.r_weight) (hwm : P.r_weight ≤ P.m) :
    (generate_sparse_r P pos).length = P.m ∧
    (∀ x ∈ generate_sparse_r P pos, x = 0 ∨ x = 1) ∧
    (generate_sparse_r P pos).count 1 = P.r_weight := by
  refine ⟨by simp [generate_sparse_r], ?_, ?_⟩
  · intro x hx
    obtain ⟨i, hi, rfl⟩ := List.mem_map.mp hx
    by_cases h : i ∈ pos
    · right; rw [if_pos h]
    · left; rw [if_neg h]
  · unfold generate_sparse_r
    rw [List.count, List.countP_map]
    have hcong : ∀ i ∈ List.range P.m,
        (((fun x => x == (1 : Int)) ∘ fun i => if i ∈ pos then (1 : Int) else 0) i = true
          ↔ (fun i => decide (i ∈ pos)) i = true) := by
      intro i _
      by_cases h : i ∈ pos <;> simp [h]
    rw [List.countP_congr hcong, List.countP_eq_length_filter,
      (filter_mem_perm hnd hlt).length_eq, hlen]

/-- Witness for C9: positions `[1, 3]` in a parameter set with `m = 4`,
`r_weight = 2` give the vector `[0, 1, 0, 1]`. -/
theorem c9_sparse_vector_weight_witness :
    (generate_sparse_r (mkARLCParams 1 4 32768 4 256 128 2) [1, 3]).length
        = (mkARLCParams 1 4 32768 4 256 128 2).m ∧
    (∀ x ∈ generate_sparse_r (mkARLCParams 1 4 32768 4 256 128 2) [1, 3], x = 0 ∨ x = 1) ∧
    (generate_sparse_r (mkARLCParams 1 4 32768 4 256 128 2) [1, 3]).count 1
        = (mkARLCParams 1 4 32768 4 256 128 2).r_weight :=
  c9_sparse_vector_weight (mkARLCParams 1 4 32768 4 256 128 2) [1, 3]
    (by decide) (by decide) (by decide) (by decide) (by decide)

/-! ### Claim C4 (parameter validation) -/

/-- Claim C4 fails on the code: `ARLCParams` is a plain dataclass with no
`__post_init__` and no validation, so no invalid tuple is ever rejected.
Counterexample: a tuple violating all three invariants at once
(`q = 7 ≠ 2 * 3 = delta * p`, `r_weight = 5 > 1 = m`, and
`r_weight * eta = 500 ≥ 1 = delta / 2`) is accepted by construction and its
fields are stored verbatim; no `InvalidParameters` error exists anywhere in
the source. -/
theorem c4_params_no_validation_counterexample :
    mkARLCParams 1 1 7 100 3 2 5
      = { n := 1, m := 1, q := 7, eta := 100, p := 3, delta := 2, r_weight := 5 } ∧
    (7 : Int) ≠ 2 * 3 ∧ (5 : Nat) > 1 ∧ (5 : Int) * 100 ≥ 2 / 2 :=
  ⟨rfl, by decide, by decide, by decide⟩

/-- Claim C4 as amended: construction of the parameter object performs no
validation — every tuple, including those with `q ≠ delta * p`,
`r_weight > m` or `r_weight * eta ≥ delta / 2`, is accepted at construction
time and its fields stored verbatim; no `InvalidParameters` failure happens at
construction.  (Contrary to the claim, rejection — when it happens at all —
is left to use time: for instance a tuple with `r_weight > m` makes
`random.sample(range(m), r_weight)` raise inside `encrypt`; tuples violating
only the other two invariants are never rejected.) -/
theorem c4_params_construction_total (n m : Nat) (q eta p delta : Int) (r_weight : Nat) :
    mkARLCParams n m q eta p delta r_weight
      = { n := n, m := m, q := q, eta := eta, p := p, delta := delta, r_weight := r_weight } :=
  rfl

/-! ### Claim C1 (round trip) -/

/-- Claim C1 fails on the code (a code bug): the round trip
`decrypt(sk, encrypt(pk, m)) = m` is broken by the non-printable-character
rewrite in `decrypt`, which the driver's own test harness exercises (its
sixth test message contains newlines and its equality check fails).  On the
valid parameter set `P_small` (`q = delta * p`, `0 < r_weight ≤ m`, worst
case noise `r_weight * eta = 4` far below `delta / 2 = 64`), with a keypair
produced by `generate_keypair` from in-range error draws and a weight-1
sparse vector, the plaintext `[10]` (newline, a symbol in `[0, p)`) encrypts
and then decrypts to `[63]` (the question mark), not `[10]`. -/
theorem c1_roundtrip_newline_bug :
    P_small.q = P_small.delta * P_small.p ∧
    0 < P_small.r_weight ∧ P_small.r_weight ≤ P_small.m ∧
    (P_small.r_weight : Int) * P_small.eta < P_small.delta / 2 ∧
    (0 : Int) ≤ 10 ∧ (10 : Int) < P_small.p ∧
    generate_keypair P_small [[5], [7]] [2] [1, -1] = (([[5], [7]], [11, 13]), [2]) ∧
    encrypt P_small ([[5], [7]], [11, 13]) (fun _ => [1, 0]) [10]
      = Except.ok [([5], 17675)] ∧
    decrypt P_small [([5], 17675)] [2] = Except.ok [63] ∧
    (63 : Int) ≠ 10 :=
  ⟨by decide, by decide, by decide, by decide, by decide, by decide, rfl, rfl, rfl, by decide⟩
